import Mathlib

/-!
Verification of the m87 remote-access tunneling core.

Strings from the Rust source are modelled as lists of byte values
(`List Nat`, each element intended `< 256`): a Rust `String`/`&str` is its
UTF-8 byte sequence, a `Vec<u8>` is the byte list itself.  Machine
integers are `Nat`/`Int` with explicit range side conditions where the
source relies on them.  Fallible operations return `Option`.

Covered source locations:
  m87-server/src/auth/tunnel_token.rs   (issue_tunnel_token, verify_tunnel_token)
  m87-server/src/api/serve.rs           (handle_control_tunnel, extract_kv,
                                         handle_forward_connection)
  m87-client/src/streams/terminal.rs    (handle_terminal_io)
  m87-client/src/streams/exec.rs        (handle_exec_io, run_piped, run_with_pty)
-/

namespace M87

/-! ## Generic byte-string helpers -/

/-- Decimal digits of a natural number, most significant first, as ASCII
bytes.  Fuel-based so that it reduces in the kernel; `natDec` supplies
enough fuel. -/
def natDigitsAux (fuel n : Nat) : List Nat :=
  match fuel with
  | 0 => []
  | f + 1 => if n < 10 then [48 + n] else natDigitsAux f (n / 10) ++ [48 + n % 10]

/-- ASCII decimal rendering of a `Nat` (Rust `format!` on an unsigned value). -/
def natDec (n : Nat) : List Nat := natDigitsAux (n + 1) n

/-- ASCII decimal rendering of an `Int` (Rust `format!` on an `i64`):
a leading minus sign (byte 45) for negative values. -/
def intDec (i : Int) : List Nat :=
  if i < 0 then 45 :: natDec (-i).toNat else natDec i.toNat

/-- Accumulating decimal parse of a digit-byte list; `none` as soon as a
non-digit byte is seen.  Mirrors the accumulation loop inside Rust's
`from_str` for integers. -/
def digitsVal : List Nat → Nat → Option Nat
  | [], acc => some acc
  | c :: r, acc =>
      if 48 ≤ c ∧ c ≤ 57 then digitsVal r (acc * 10 + (c - 48)) else none

/-- Rust `str::parse::<i64>()`: optional sign (`+` byte 43, `-` byte 45),
at least one digit, value required to fit in `i64`
(`-2^63 ≤ v < 2^63`; out-of-range input is a parse error). -/
def parseI64 (bs : List Nat) : Option Int :=
  match bs with
  | [] => none
  | 43 :: rest =>
      match rest, digitsVal rest 0 with
      | _ :: _, some v => if v < 2 ^ 63 then some (v : Int) else none
      | _, _ => none
  | 45 :: rest =>
      match rest, digitsVal rest 0 with
      | _ :: _, some v => if v ≤ 2 ^ 63 then some (-(v : Int)) else none
      | _, _ => none
  | bs' =>
      match digitsVal bs' 0 with
      | some v => if v < 2 ^ 63 then some (v : Int) else none
      | none => none

/-- Split a byte list at every pipe byte (124), keeping empty segments:
Rust `str::split('|')` on ASCII input.  (Byte 124 cannot occur inside a
multi-byte UTF-8 sequence, so byte-level splitting agrees with Rust's
char-level split.) -/
def splitBar : List Nat → List (List Nat)
  | [] => [[]]
  | b :: rest =>
      match splitBar rest with
      | [] => [[]]
      | seg :: segs => if b = 124 then [] :: seg :: segs else (b :: seg) :: segs

/-! ## Hex encoding (`hex` crate) -/

/-- Lowercase hex digit for a value `< 16` (`hex::encode`). -/
def hexChar (n : Nat) : Nat := if n < 10 then 48 + n else 87 + n

/-- `hex::encode`: two lowercase hex bytes per input byte. -/
def hexEncode : List Nat → List Nat
  | [] => []
  | b :: r => hexChar (b / 16) :: hexChar (b % 16) :: hexEncode r

/-- Value of one hex digit byte; accepts both cases (`hex::decode`). -/
def hexVal (c : Nat) : Option Nat :=
  if 48 ≤ c ∧ c ≤ 57 then some (c - 48)
  else if 97 ≤ c ∧ c ≤ 102 then some (c - 87)
  else if 65 ≤ c ∧ c ≤ 70 then some (c - 55)
  else none

/-- `hex::decode`: fails on odd length or a non-hex byte. -/
def hexDecode : List Nat → Option (List Nat)
  | [] => some []
  | [_] => none
  | c1 :: c2 :: r =>
      match hexVal c1, hexVal c2, hexDecode r with
      | some h, some l, some t => some ((h * 16 + l) :: t)
      | _, _, _ => none

/-! ## base64url without padding (`base64::engine::general_purpose::URL_SAFE_NO_PAD`) -/

/-- URL-safe alphabet: `A-Z a-z 0-9 - _` for sextet values `0..63`. -/
def b64Char (s : Nat) : Nat :=
  if s < 26 then 65 + s
  else if s < 52 then 97 + (s - 26)
  else if s < 62 then 48 + (s - 52)
  else if s = 62 then 45 else 95

/-- Inverse of the URL-safe alphabet; `none` off the alphabet. -/
def b64Val (c : Nat) : Option Nat :=
  if 65 ≤ c ∧ c ≤ 90 then some (c - 65)
  else if 97 ≤ c ∧ c ≤ 122 then some (c - 97 + 26)
  else if 48 ≤ c ∧ c ≤ 57 then some (c - 48 + 52)
  else if c = 45 then some 62
  else if c = 95 then some 63
  else none

/-- base64url-no-padding encoding of a byte list. -/
def b64Encode : List Nat → List Nat
  | [] => []
  | [b1] => [b64Char (b1 / 4), b64Char (b1 % 4 * 16)]
  | [b1, b2] =>
      [b64Char (b1 / 4), b64Char (b1 % 4 * 16 + b2 / 16), b64Char (b2 % 16 * 4)]
  | b1 :: b2 :: b3 :: rest =>
      b64Char (b1 / 4) :: b64Char (b1 % 4 * 16 + b2 / 16) ::
      b64Char (b2 % 16 * 4 + b3 / 64) :: b64Char (b3 % 64) :: b64Encode rest

/-- base64url-no-padding decoding.  Rejects: bytes off the alphabet,
length ≡ 1 (mod 4), and non-zero trailing bits in a final partial group
(the crate's default `decode_allow_trailing_bits = false`). -/
def b64Decode : List Nat → Option (List Nat)
  | [] => some []
  | [_] => none
  | [c1, c2] =>
      match b64Val c1, b64Val c2 with
      | some s1, some s2 =>
          if s2 % 16 = 0 then some [s1 * 4 + s2 / 16] else none
      | _, _ => none
  | [c1, c2, c3] =>
      match b64Val c1, b64Val c2, b64Val c3 with
      | some s1, some s2, some s3 =>
          if s3 % 4 = 0 then some [s1 * 4 + s2 / 16, s2 % 16 * 16 + s3 / 4]
          else none
      | _, _, _ => none
  | c1 :: c2 :: c3 :: c4 :: rest =>
      match b64Val c1, b64Val c2, b64Val c3, b64Val c4, b64Decode rest with
      | some s1, some s2, some s3, some s4, some t =>
          some ((s1 * 4 + s2 / 16) :: (s2 % 16 * 16 + s3 / 4) :: (s3 % 4 * 64 + s4) :: t)
      | _, _, _, _, _ => none

/-! ## UTF-8 validity (Rust `String::from_utf8`)

A small DFA over bytes; state 0 expects a start byte, the other states
count down expected continuation bytes with range restrictions for the
first continuation byte after `E0`, `ED`, `F0`, `F4`. -/

/-- One step of the UTF-8 validation DFA; `none` is the reject state.
States: 0 start; 1 one plain continuation pending; 2 two pending;
3 three pending; 4 after `E0`; 5 after `ED`; 6 after `F0`; 7 after `F4`. -/
def utf8Step (st b : Nat) : Option Nat :=
  match st with
  | 0 =>
      if b < 128 then some 0
      else if 194 ≤ b ∧ b ≤ 223 then some 1
      else if b = 224 then some 4
      else if (225 ≤ b ∧ b ≤ 236) ∨ b = 238 ∨ b = 239 then some 2
      else if b = 237 then some 5
      else if b = 240 then some 6
      else if 241 ≤ b ∧ b ≤ 243 then some 3
      else if b = 244 then some 7
      else none
  | 1 => if 128 ≤ b ∧ b ≤ 191 then some 0 else none
  | 2 => if 128 ≤ b ∧ b ≤ 191 then some 1 else none
  | 3 => if 128 ≤ b ∧ b ≤ 191 then some 2 else none
  | 4 => if 160 ≤ b ∧ b ≤ 191 then some 1 else none
  | 5 => if 128 ≤ b ∧ b ≤ 159 then some 1 else none
  | 6 => if 144 ≤ b ∧ b ≤ 191 then some 2 else none
  | 7 => if 128 ≤ b ∧ b ≤ 143 then some 2 else none
  | _ => none

/-- Run the DFA from a state over a byte list. -/
def utf8Run (st : Nat) : List Nat → Option Nat
  | [] => some st
  | b :: r =>
      match utf8Step st b with
      | some st' => utf8Run st' r
      | none => none

/-- A byte list is valid UTF-8 iff the DFA, started at 0, ends at 0. -/
def validUtf8 (bs : List Nat) : Bool :=
  match utf8Run 0 bs with
  | some 0 => true
  | _ => false

/-! ## SHA-256 and HMAC-SHA256 (`sha2` / `hmac` crates)

Words are `Nat` reduced mod `2^32` explicitly. -/

/-- Truncate to a 32-bit word. -/
def w32 (n : Nat) : Nat := n % 4294967296

/-- 32-bit right rotation (operand assumed `< 2^32`). -/
def rotr32 (x n : Nat) : Nat := w32 (x / 2 ^ n + x % 2 ^ n * 2 ^ (32 - n))

/-- SHA-256 round constants (decimal rendering of the FIPS 180-4 table). -/
def shaK : List Nat :=
  [1116352408, 1899447441, 3049323471, 3921009573, 961987163,
   1508970993, 2453635748, 2870763221, 3624381080, 310598401,
   607225278, 1426881987, 1925078388, 2162078206, 2614888103,
   3248222580, 3835390401, 4022224774, 264347078, 604807628,
   770255983, 1249150122, 1555081692, 1996064986, 2554220882,
   2821834349, 2952996808, 3210313671, 3336571891, 3584528711,
   113926993, 338241895, 666307205, 773529912, 1294757372,
   1396182291, 1695183700, 1986661051, 2177026350, 2456956037,
   2730485921, 2820302411, 3259730800, 3345764771, 3516065817,
   3600352804, 4094571909, 275423344, 430227734, 506948616,
   659060556, 883997877, 958139571, 1322822218, 1537002063,
   1747873779, 1955562222, 2024104815, 2227730452, 2361852424,
   2428436474, 2756734187, 3204031479, 3329325298]

/-- SHA-256 initial hash state (decimal rendering). -/
def shaH0 : List Nat :=
  [1779033703, 3144134277, 1013904242, 2773480762, 1359893119,
   2600822924, 528734635, 1541459225]

/-- Merkle–Damgård padding: `0x80`, zeros, then the bit length as eight
big-endian bytes. -/
def sha256Pad (msg : List Nat) : List Nat :=
  let l := msg.length
  let pad := (119 - l % 64) % 64
  let bits := l * 8
  msg ++ 128 :: List.replicate pad 0 ++
    [bits / 2 ^ 56 % 256, bits / 2 ^ 48 % 256, bits / 2 ^ 40 % 256,
     bits / 2 ^ 32 % 256, bits / 2 ^ 24 % 256, bits / 2 ^ 16 % 256,
     bits / 2 ^ 8 % 256, bits % 256]

/-- Cut a list into 64-byte blocks (fuel-based; fuel bounds the number of
blocks). -/
def chunk64 : Nat → List Nat → List (List Nat)
  | 0, _ => []
  | _, [] => []
  | f + 1, xs => xs.take 64 :: chunk64 f (xs.drop 64)

/-- First 16 big-endian 32-bit words of a 64-byte block. -/
def blockWords : List Nat → List Nat
  | b1 :: b2 :: b3 :: b4 :: rest =>
      (((b1 * 256 + b2) * 256 + b3) * 256 + b4) :: blockWords rest
  | _ => []

/-- Extend the 16 message-schedule words to 64. -/
def extendSchedule : Nat → List Nat → List Nat
  | 0, ws => ws
  | f + 1, ws =>
      let n := ws.length
      let w15 := ws.getD (n - 15) 0
      let w2 := ws.getD (n - 2) 0
      let s0 := (rotr32 w15 7) ^^^ (rotr32 w15 18) ^^^ (w15 / 2 ^ 3)
      let s1 := (rotr32 w2 17) ^^^ (rotr32 w2 19) ^^^ (w2 / 2 ^ 10)
      extendSchedule f (ws ++ [w32 (ws.getD (n - 16) 0 + s0 + ws.getD (n - 7) 0 + s1)])

/-- One SHA-256 compression round. -/
def shaRound (st : List Nat) (kw : Nat × Nat) : List Nat :=
  match st with
  | [a, b, c, d, e, f, g, h] =>
      let s1 := (rotr32 e 6) ^^^ (rotr32 e 11) ^^^ (rotr32 e 25)
      let ch := (e &&& f) ^^^ ((4294967295 - e) &&& g)
      let t1 := w32 (h + s1 + ch + kw.1 + kw.2)
      let s0 := (rotr32 a 2) ^^^ (rotr32 a 13) ^^^ (rotr32 a 22)
      let mj := (a &&& b) ^^^ (a &&& c) ^^^ (b &&& c)
      let t2 := w32 (s0 + mj)
      [w32 (t1 + t2), a, b, c, w32 (d + t1), e, f, g]
  | st => st

/-- Compress one block into the running hash state. -/
def shaBlock (h : List Nat) (block : List Nat) : List Nat :=
  let ws := extendSchedule 48 (blockWords block)
  let st := (List.zip shaK ws).foldl shaRound h
  (List.zip h st).map fun p => w32 (p.1 + p.2)

/-- Big-endian bytes of a 32-bit word. -/
def wordBytes (x : Nat) : List Nat :=
  [x / 2 ^ 24 % 256, x / 2 ^ 16 % 256, x / 2 ^ 8 % 256, x % 256]

/-- SHA-256 digest (32 bytes) of a byte list. -/
def sha256 (msg : List Nat) : List Nat :=
  let padded := sha256Pad msg
  let st := (chunk64 (padded.length) padded).foldl shaBlock shaH0
  st.flatMap wordBytes

/-- HMAC-SHA256 with byte-list key and message (`Hmac<Sha256>`; any key
length is accepted, long keys are pre-hashed). -/
def hmacSha256 (key msg : List Nat) : List Nat :=
  let k0 := if 64 < key.length then sha256 key else key
  let k := k0 ++ List.replicate (64 - k0.length) 0
  let ipad := k.map fun b => b ^^^ 54
  let opad := k.map fun b => b ^^^ 92
  sha256 (opad ++ sha256 (ipad ++ msg))

/-! ## Tunnel tokens (m87-server/src/auth/tunnel_token.rs) -/

/-- Rust `u64 as i64`: reinterpret the high bit as the sign. -/
def u64AsI64 (n : Nat) : Int :=
  if n < 2 ^ 63 then (n : Int) else (n : Int) - 2 ^ 64

/-- `issue_tunnel_token(node_id, ttl_secs, secret)` at clock reading
`now` (`Utc::now().timestamp()`): base64url-no-padding of
`node_id|expiry|hex(HMAC-SHA256(secret, node_id|expiry))` with
`expiry = now + ttl_secs as i64`.  (The only fallible step in the source,
`Hmac::new_from_slice`, accepts every key length, so the model is total.) -/
def issue_tunnel_token (node_id : List Nat) (ttl_secs : Nat) (secret : List Nat)
    (now : Int) : List Nat :=
  let expiry := now + u64AsI64 ttl_secs
  let payload := node_id ++ 124 :: intDec expiry
  let signature := hmacSha256 secret payload
  b64Encode (payload ++ 124 :: hexEncode signature)

/-- `verify_tunnel_token(token, secret)` at clock reading `now`:
base64url-decode, UTF-8 check, split on `|` into exactly three parts,
parse the expiry as `i64`, reject when `now > expiry`, hex-decode the
signature and compare it with the recomputed HMAC (the source's
constant-time `verify_slice` is equality up to timing).  `none` models
every `Err` return. -/
def verify_tunnel_token (token secret : List Nat) (now : Int) : Option (List Nat) :=
  match b64Decode token with
  | none => none
  | some decoded =>
      if validUtf8 decoded then
        match splitBar decoded with
        | [node_id, ebytes, sigbytes] =>
            match parseI64 ebytes with
            | none => none
            | some expiry =>
                if now > expiry then none
                else
                  let payload := node_id ++ 124 :: intDec expiry
                  match hexDecode sigbytes with
                  | none => none
                  | some sig =>
                      if sig = hmacSha256 secret payload then some node_id else none
        | _ => none
      else none

/-! ## Server: control tunnel and forward proxy (m87-server/src/api/serve.rs)

The session map `RelayState.tunnels : RwLock<HashMap<String, …>>` is
modelled as an association list from node id (byte string) to an opaque
session identifier (`Nat`); the forward registry likewise. -/

/-- Rust `char::is_whitespace` restricted to ASCII (space, `\t`, `\n`,
`\v`, `\f`, `\r`).  The handshake values compared by the server are
ASCII, so the Unicode cases of `split_whitespace` are not modelled. -/
def isWsByte (b : Nat) : Bool :=
  b = 32 ∨ b = 9 ∨ b = 10 ∨ b = 11 ∨ b = 12 ∨ b = 13

/-- Helper for `splitWs`: accumulates the current word (reversed). -/
def splitWsAux : List Nat → List Nat → List (List Nat)
  | [], cur => if cur.isEmpty then [] else [cur.reverse]
  | b :: r, cur =>
      if isWsByte b then
        if cur.isEmpty then splitWsAux r [] else cur.reverse :: splitWsAux r []
      else splitWsAux r (b :: cur)

/-- Rust `str::split_whitespace`: maximal non-whitespace words, empties
dropped. -/
def splitWs (bs : List Nat) : List (List Nat) := splitWsAux bs []

/-- Rust `str::strip_prefix` on byte strings. -/
def stripPre : List Nat → List Nat → Option (List Nat)
  | [], bs => some bs
  | _ :: _, [] => none
  | p :: ps, b :: bs => if p = b then stripPre ps bs else none

/-- `extract_kv` (serve.rs): first whitespace-separated part that starts
with `key=`, with that key stripped. -/
def extract_kv (line key : List Nat) : Option (List Nat) :=
  (splitWs line).findSome? fun part => stripPre (key ++ [61]) part

/-- ASCII bytes of the handshake key `node_id`. -/
def nodeIdKey : List Nat := [110, 111, 100, 101, 95, 105, 100]

/-- ASCII bytes of the handshake key `token`. -/
def tokenKey : List Nat := [116, 111, 107, 101, 110]

/-- `tunnels.remove(&node_id)`: drop the entry for a key. -/
def removeTunnel (k : List Nat) (m : List (List Nat × Nat)) : List (List Nat × Nat) :=
  m.filter fun e => !decide (e.1 = k)

/-- Modelled from the spec: `RelayState::get_tunnel` lives in
m87-server/src/relay/relay_state.rs, which is absent from the provided
sources; spec §3 describes the control-session map as
`agent_id → multiplex_session`, so lookup is association-list lookup. -/
def get_tunnel (k : List Nat) : List (List Nat × Nat) → Option Nat
  | [] => none
  | (k', s) :: r => if k' = k then some s else get_tunnel k r

/-- Modelled from the spec: `RelayState::register_tunnel` lives in
m87-server/src/relay/relay_state.rs, absent from the provided sources.
Spec §3: "at most one session per `agent_id`; registering a new one
displaces the old" — registration is map insert-replace. -/
def register_tunnel (k : List Nat) (s : Nat) (m : List (List Nat × Nat)) :
    List (List Nat × Nat) :=
  (k, s) :: removeTunnel k m

/-- Result of one control-tunnel handshake: the new session map, every
byte string written back on the TLS stream, and the registered node id
(`none` when the connection was closed without registration). -/
structure ControlResult where
  tunnels : List (List Nat × Nat)
  wrote : List (List Nat)
  registered : Option (List Nat)
  deriving DecidableEq

/-- `handle_control_tunnel` (serve.rs): read one handshake line, extract
`node_id` and `token`, verify the token, and on success remove any
existing session for the node and register the new one.  An empty `line`
models `read_line` returning 0 (EOF before any byte).  The handler never
writes on the stream, so `wrote` is `[]` on every path. -/
def handle_control_tunnel (line secret : List Nat) (now : Int)
    (tunnels : List (List Nat × Nat)) (newSess : Nat) : ControlResult :=
  if line.isEmpty then ⟨tunnels, [], none⟩
  else
    let node_id := (extract_kv line nodeIdKey).getD []
    let token := (extract_kv line tokenKey).getD []
    if node_id.isEmpty ∨ token.isEmpty then ⟨tunnels, [], none⟩
    else
      match verify_tunnel_token token secret now with
      | some id_ok =>
          if id_ok = node_id then
            ⟨register_tunnel node_id newSess (removeTunnel node_id tunnels), [],
              some node_id⟩
          else ⟨tunnels, [], none⟩
      | none => ⟨tunnels, [], none⟩

/-- One forward mapping (spec §3; the `ForwardMeta` struct itself lives in
the absent relay_state.rs, its fields are read in serve.rs): target agent,
target port, optional source-IP allow-list (IPs as strings, compared by
string equality). -/
structure ForwardMeta where
  node_id : List Nat
  target_port : Nat
  allowed_ips : Option (List (List Nat))
  deriving DecidableEq

/-- Modelled from the spec: `RelayState.forwards` lookup (relay_state.rs
is absent from the provided sources); spec §3 gives
`sni_host → {agent_id, target_port, allowed_ips}` with unique hosts. -/
def getForward (h : List Nat) : List (List Nat × ForwardMeta) → Option ForwardMeta
  | [] => none
  | (h', m) :: r => if h' = h then some m else getForward h r

/-- Observable actions of `handle_forward_connection` in order. -/
inductive FwdEvent where
  | closeInbound
  | openSub (node : List Nat)
  | subWrite (bytes : List Nat)
  | proxy
  deriving DecidableEq

/-- `handle_forward_connection` (serve.rs) as its event trace.
`peer` is `peer_addr()` rendered as an IP string (`none` when
`peer_addr()` failed — the ACL block is guarded by `if let Ok(peer)`).
`openOk`/`writeOk` say whether `open_stream` and the header
`write_all` succeed; on their failure the function returns `Err` and the
inbound socket is simply dropped (no further events). -/
def handle_forward_connection (forwards : List (List Nat × ForwardMeta))
    (tunnels : List (List Nat × Nat)) (host : List Nat)
    (peer : Option (List Nat)) (openOk writeOk : Bool) : List FwdEvent :=
  let blocked :=
    match peer with
    | some ip =>
        match getForward host forwards with
        | some meta =>
            match meta.allowed_ips with
            | some ips => !decide (ip ∈ ips)
            | none => false
        | none => false
    | none => false
  if blocked then [.closeInbound]
  else
    match getForward host forwards with
    | none => [.closeInbound]
    | some meta =>
        match get_tunnel meta.node_id tunnels with
        | none => [.closeInbound]
        | some _ =>
            if openOk then
              if writeOk then
                [.openSub meta.node_id,
                 .subWrite (natDec meta.target_port ++ [10]), .proxy]
              else [.openSub meta.node_id]
            else []

/-- The keys of a session map. -/
def tunnelKeys (m : List (List Nat × Nat)) : List (List Nat) := m.map Prod.fst

/-- The forward registry with the IP allow-list of one host removed. -/
def stripAcl (h : List Nat) (f : List (List Nat × ForwardMeta)) :
    List (List Nat × ForwardMeta) :=
  f.map fun e =>
    if e.1 = h then (e.1, ⟨e.2.node_id, e.2.target_port, none⟩) else e

/-! ## Client: terminal / exec PTY input parsing
(m87-client/src/streams/terminal.rs, exec.rs `run_with_pty`) -/

/-- What the input-processing loop does with terminal bytes. -/
inductive TermEvent where
  | resize (rows cols : Nat)
  | ptyWrite (bytes : List Nat)
  deriving DecidableEq

/-- `input_buf.iter().position(|&b| b == 0xFF).unwrap_or(len)`. -/
def idx255 : List Nat → Nat
  | [] => 0
  | b :: r => if b = 255 then 0 else idx255 r + 1

/-- The inner `while !input_buf.is_empty()` loop of `handle_terminal_io`
(terminal.rs 169–210) and `run_with_pty` (exec.rs 351–386), one source
iteration per unit of fuel.  Returns the emitted events once the buffer
is empty, `none` if the loop has not terminated within the fuel — for
every fuel when the loop spins without consuming input. -/
def drainInput (fuel : Nat) (buf : List Nat) : Option (List TermEvent) :=
  match buf with
  | [] => some []
  | b :: _ =>
      match fuel with
      | 0 => none
      | fuel + 1 =>
          if 5 ≤ buf.length ∧ b = 255 then
            match buf with
            | _ :: b1 :: b2 :: b3 :: b4 :: rest =>
                match drainInput fuel rest with
                | some evs => some (.resize (b1 * 256 + b2) (b3 * 256 + b4) :: evs)
                | none => none
            | _ => none
          else
            let k := idx255 buf
            let payload := buf.take k
            match drainInput fuel (buf.drop k) with
            | some evs =>
                some (if payload.isEmpty then evs else .ptyWrite payload :: evs)
            | none => none

/-- The handler's outer read loop: each network read appends its chunk to
`input_buf` and the inner loop runs until the buffer is empty, so the
buffer is always empty when the next read is consumed.  `none` when the
inner loop diverges — subsequent reads are then never consumed. -/
def feedReads (fuel : Nat) : List (List Nat) → Option (List TermEvent)
  | [] => some []
  | c :: rest =>
      match drainInput fuel c with
      | none => none
      | some evs =>
          match feedReads fuel rest with
          | none => none
          | some evs' => some (evs ++ evs')

/-- The five-byte resize frame `0xFF rows_hi rows_lo cols_hi cols_lo`
(big-endian u16 pairs), as described in spec §6. -/
def encodeResize (rows cols : Nat) : List Nat :=
  [255, rows / 256, rows % 256, cols / 256, cols % 256]

/-- The prologue of `handle_terminal_io` (terminal.rs 24–34): read
exactly 5 bytes; if the first is `0xFF` take the PTY size from the frame,
else default to 24×80; the 5 bytes are consumed either way and the rest
of the stream feeds the main loop.  (On a stream shorter than 5 bytes
`read_exact` fails and the buffer contents are unspecified; theorems
assume at least 5 bytes.) -/
def terminalSetup : List Nat → (Nat × Nat) × List Nat
  | b0 :: b1 :: b2 :: b3 :: b4 :: rest =>
      (if b0 = 255 then (b1 * 256 + b2, b3 * 256 + b4) else (24, 80), rest)
  | _ => ((24, 80), [])

/-- `handle_terminal_io` reduced to its observable I/O plan: the PTY size
chosen before the shell is spawned, and the event stream of the main loop
applied to the bytes remaining after the 5-byte prologue. -/
def handle_terminal_io (fuel : Nat) (input : List Nat) :
    (Nat × Nat) × Option (List TermEvent) :=
  let (size, rest) := terminalSetup input
  (size, drainInput fuel rest)

/-! ## Client: exec sessions (m87-client/src/streams/exec.rs)

`handle_exec_io` reads one newline-terminated line and feeds it to
`serde_json::from_str::<ExecRequest>`.  The JSON grammar below models
`serde_json` on the fragment the struct can produce: objects, arrays,
strings with escapes, numbers, booleans, null; unknown fields ignored,
duplicate known fields rejected, `command` required, `tty` defaulting to
false, `rows`/`cols` optional `u16`. -/

/-- The deserialized exec config (`struct ExecRequest`). -/
structure ExecRequest where
  command : List Nat
  tty : Bool
  rows : Option Nat
  cols : Option Nat
  deriving DecidableEq

/-- JSON values.  A number carries `some v` when it is syntactically an
integer (no fraction, no exponent) — the only numbers `u16`
deserialization accepts — and `none` otherwise. -/
inductive Jval where
  | jnull
  | jbool (b : Bool)
  | jnum (i : Option Int)
  | jstr (s : List Nat)
  | jarr (elems : List Jval)
  | jobj (fields : List (List Nat × Jval))

/-- JSON insignificant whitespace. -/
def jsonWsByte (b : Nat) : Bool := b = 32 ∨ b = 9 ∨ b = 10 ∨ b = 13

/-- Drop leading JSON whitespace. -/
def skipJsonWs : List Nat → List Nat
  | [] => []
  | b :: r => if jsonWsByte b then skipJsonWs r else b :: r

/-- UTF-8 encoding of a Unicode code point (for `\uXXXX` escapes). -/
def utf8EncodeCp (cp : Nat) : List Nat :=
  if cp < 128 then [cp]
  else if cp < 2048 then [192 + cp / 64, 128 + cp % 64]
  else if cp < 65536 then [224 + cp / 4096, 128 + cp / 64 % 64, 128 + cp % 64]
  else [240 + cp / 262144, 128 + cp / 4096 % 64, 128 + cp / 64 % 64, 128 + cp % 64]

/-- Four hex digits (a `\u` escape payload). -/
def hex4 : List Nat → Option (Nat × List Nat)
  | c1 :: c2 :: c3 :: c4 :: rest =>
      match hexVal c1, hexVal c2, hexVal c3, hexVal c4 with
      | some h1, some h2, some h3, some h4 =>
          some ((((h1 * 16 + h2) * 16 + h3) * 16 + h4), rest)
      | _, _, _, _ => none
  | _ => none

/-- Value of a simple (one-character) escape, if any. -/
def escChar (e : Nat) : Option Nat :=
  if e = 34 then some 34
  else if e = 92 then some 92
  else if e = 47 then some 47
  else if e = 98 then some 8
  else if e = 102 then some 12
  else if e = 110 then some 10
  else if e = 114 then some 13
  else if e = 116 then some 9
  else none

/-- Body of `parseJstr`, pushing content bytes onto an accumulator the
way serde_json pushes decoded bytes onto its scratch buffer; the
accumulator is reversed on the closing quote. -/
def parseJstrAux : Nat → List Nat → List Nat → Option (List Nat × List Nat)
  | 0, _, _ => none
  | _, [], _ => none
  | f + 1, b :: rest, acc =>
      if b = 34 then some (acc.reverse, rest)
      else if b = 92 then
        match rest with
        | [] => none
        | e :: rest2 =>
            match escChar e with
            | some c => parseJstrAux f rest2 (c :: acc)
            | none =>
                if e = 117 then
                  match hex4 rest2 with
                  | none => none
                  | some (cp, r1) =>
                      if 55296 ≤ cp ∧ cp < 56320 then
                        match r1 with
                        | 92 :: 117 :: r2 =>
                            match hex4 r2 with
                            | some (lo, r3) =>
                                if 56320 ≤ lo ∧ lo < 57344 then
                                  parseJstrAux f r3
                                    ((utf8EncodeCp
                                        (65536 + (cp - 55296) * 1024 +
                                          (lo - 56320))).reverse ++ acc)
                                else none
                            | none => none
                        | _ => none
                      else if 56320 ≤ cp ∧ cp < 57344 then none
                      else parseJstrAux f r1 ((utf8EncodeCp cp).reverse ++ acc)
                else none
      else if b < 32 then none
      else parseJstrAux f rest (b :: acc)

/-- JSON string body after the opening quote: content bytes and the
remainder after the closing quote.  Escapes as in serde_json, including
surrogate pairs; unescaped control bytes rejected. -/
def parseJstr (f : Nat) (bs : List Nat) : Option (List Nat × List Nat) :=
  parseJstrAux f bs []

/-- Leading run of decimal digit bytes, and the rest. -/
def digitRun : List Nat → List Nat × List Nat
  | [] => ([], [])
  | c :: r =>
      if 48 ≤ c ∧ c ≤ 57 then
        let p := digitRun r
        (c :: p.1, p.2)
      else ([], c :: r)

/-- Fraction/exponent tail of a JSON number after the integer part. -/
def parseJnumTail (neg : Bool) (v : Nat) (bs : List Nat) :
    Option (Option Int × List Nat) :=
  let (hasFrac, bs2) : Bool × List Nat := match bs with
    | 46 :: r =>
        let p := digitRun r
        (true, p.2)
    | _ => (false, bs)
  let fracOk : Bool := match bs with
    | 46 :: r => !(digitRun r).1.isEmpty
    | _ => true
  let (hasExp, bs3) : Bool × List Nat := match bs2 with
    | 101 :: r | 69 :: r =>
        let r' := match r with
          | 43 :: r'' => r''
          | 45 :: r'' => r''
          | _ => r
        let p := digitRun r'
        (true, p.2)
    | _ => (false, bs2)
  let expOk : Bool := match bs2 with
    | 101 :: r | 69 :: r =>
        let r' := match r with
          | 43 :: r'' => r''
          | 45 :: r'' => r''
          | _ => r
        !(digitRun r').1.isEmpty
    | _ => true
  if fracOk && expOk then
    some (if hasFrac || hasExp then none
          else some (if neg then -(v : Int) else (v : Int)), bs3)
  else none

/-- JSON number: optional minus, integer part (`0` or nonzero-led),
optional fraction and exponent.  Yields `some value` only for pure
integers. -/
def parseJnum (bs : List Nat) : Option (Option Int × List Nat) :=
  let (neg, bs1) := match bs with
    | 45 :: r => (true, r)
    | _ => (false, bs)
  match bs1 with
  | 48 :: r1 => parseJnumTail neg 0 r1
  | c :: _ =>
      if 49 ≤ c ∧ c ≤ 57 then
        let p := digitRun bs1
        match digitsVal p.1 0 with
        | some v => parseJnumTail neg v p.2
        | none => none
      else none
  | [] => none

/-- Intermediate result of the recursive-descent JSON parser. -/
inductive JRes where
  | val (v : Jval)
  | fields (fs : List (List Nat × Jval))
  | elems (es : List Jval)

/-- Does the byte list start with `true` / `false` / `null`? -/
def litTail (w : List Nat) (bs : List Nat) : Option (List Nat) := stripPre w bs

/-- Recursive-descent JSON parser, one function to keep the recursion
structural on the fuel.  `mode` 0 parses a value, 1 the members of an
object after `{`, 2 the elements of an array after `[` (both knowing the
collection is nonempty).  Dispatch is by `if` on the head byte so the
branches have clean equations. -/
def parseCore : Nat → Nat → List Nat → Option (JRes × List Nat)
  | 0, _, _ => none
  | f + 1, mode, bs =>
      if mode = 0 then
        match skipJsonWs bs with
        | [] => none
        | b :: rest =>
            if b = 34 then (parseJstr f rest).map fun p => (.val (.jstr p.1), p.2)
            else if b = 123 then
              match skipJsonWs rest with
              | c :: r =>
                  if c = 125 then some (.val (.jobj []), r)
                  else
                    match parseCore f 1 rest with
                    | some (.fields fs, r') => some (.val (.jobj fs), r')
                    | _ => none
              | [] =>
                  match parseCore f 1 rest with
                  | some (.fields fs, r') => some (.val (.jobj fs), r')
                  | _ => none
            else if b = 91 then
              match skipJsonWs rest with
              | c :: r =>
                  if c = 93 then some (.val (.jarr []), r)
                  else
                    match parseCore f 2 rest with
                    | some (.elems es, r') => some (.val (.jarr es), r')
                    | _ => none
              | [] =>
                  match parseCore f 2 rest with
                  | some (.elems es, r') => some (.val (.jarr es), r')
                  | _ => none
            else if b = 116 then
              match litTail [114, 117, 101] rest with
              | some r => some (.val (.jbool true), r)
              | none => none
            else if b = 102 then
              match litTail [97, 108, 115, 101] rest with
              | some r => some (.val (.jbool false), r)
              | none => none
            else if b = 110 then
              match litTail [117, 108, 108] rest with
              | some r => some (.val .jnull, r)
              | none => none
            else (parseJnum (b :: rest)).map fun p => (.val (.jnum p.1), p.2)
      else if mode = 1 then
        match skipJsonWs bs with
        | b :: rest =>
            if b = 34 then
              match parseJstr f rest with
              | none => none
              | some (key, r1) =>
                  match skipJsonWs r1 with
                  | c :: r2 =>
                      if c = 58 then
                        match parseCore f 0 r2 with
                        | some (.val v, r3) =>
                            match skipJsonWs r3 with
                            | c' :: r4 =>
                                if c' = 44 then
                                  match parseCore f 1 r4 with
                                  | some (.fields fs, r5) =>
                                      some (.fields ((key, v) :: fs), r5)
                                  | _ => none
                                else if c' = 125 then some (.fields [(key, v)], r4)
                                else none
                            | [] => none
                        | _ => none
                      else none
                  | [] => none
            else none
        | [] => none
      else if mode = 2 then
        match parseCore f 0 bs with
        | some (.val v, r1) =>
            match skipJsonWs r1 with
            | c :: r2 =>
                if c = 44 then
                  match parseCore f 2 r2 with
                  | some (.elems es, r3) => some (.elems (v :: es), r3)
                  | _ => none
                else if c = 93 then some (.elems [v], r2)
                else none
            | [] => none
        | _ => none
      else none

/-- Tail-recursive list length with accumulator (fuel computation). -/
def listLen (acc : Nat) : List Nat → Nat
  | [] => acc
  | _ :: r => listLen (acc + 1) r

/-- Parse one JSON value off the front of the input.  The fuel
`length + 1` dominates the recursion depth: every recursive call of
`parseCore`/`parseJstr` consumes at least one input byte first. -/
def parseJson (bs : List Nat) : Option (Jval × List Nat) :=
  match parseCore (listLen 1 bs) 0 bs with
  | some (.val v, rest) => some (v, rest)
  | _ => none

/-- ASCII bytes of the field name `command`. -/
def cmdKey : List Nat := [99, 111, 109, 109, 97, 110, 100]

/-- ASCII bytes of the field name `tty`. -/
def ttyKey : List Nat := [116, 116, 121]

/-- ASCII bytes of the field name `rows`. -/
def rowsKey : List Nat := [114, 111, 119, 115]

/-- ASCII bytes of the field name `cols`. -/
def colsKey : List Nat := [99, 111, 108, 115]

/-- An optional-`u16` field value: integer in range, or null. -/
def u16Field : Jval → Option (Option Nat)
  | .jnull => some none
  | .jnum (some i) => if 0 ≤ i ∧ i < 65536 then some (some i.toNat) else none
  | _ => none

/-- serde-derive field walk for `ExecRequest`: fields in order,
duplicate known field rejected, unknown fields skipped, types enforced. -/
def extractExec : List (List Nat × Jval) → Option (List Nat) → Option Bool →
    Option (Option Nat) → Option (Option Nat) → Option ExecRequest
  | [], cmd, tty, rows, cols =>
      match cmd with
      | some c => some ⟨c, tty.getD false, rows.getD none, cols.getD none⟩
      | none => none
  | (k, v) :: r, cmd, tty, rows, cols =>
      if k = cmdKey then
        match cmd, v with
        | none, .jstr s => extractExec r (some s) tty rows cols
        | _, _ => none
      else if k = ttyKey then
        match tty, v with
        | none, .jbool b => extractExec r cmd (some b) rows cols
        | _, _ => none
      else if k = rowsKey then
        match rows, u16Field v with
        | none, some rv => extractExec r cmd tty (some rv) cols
        | _, _ => none
      else if k = colsKey then
        match cols, u16Field v with
        | none, some cv => extractExec r cmd tty rows (some cv)
        | _, _ => none
      else extractExec r cmd tty rows cols

/-- `serde_json::from_str::<ExecRequest>`: one top-level object, nothing
but whitespace after it. -/
def execFromJson (bs : List Nat) : Option ExecRequest :=
  match parseJson bs with
  | some (.jobj fields, rest) =>
      if (skipJsonWs rest).isEmpty then extractExec fields none none none none
      else none
  | _ => none

/-- Rust `str::trim` restricted to ASCII whitespace (the Unicode cases do
not occur in the modelled inputs). -/
def trimAscii (bs : List Nat) : List Nat :=
  ((bs.dropWhile (isWsByte ·)).reverse.dropWhile (isWsByte ·)).reverse

/-- What `handle_exec_io` decides after reading the first line. -/
inductive ExecDecision where
  | silentClose
  | errorLine
  | spawnPiped (c : ExecRequest)
  | spawnPty (c : ExecRequest)
  deriving DecidableEq

/-- `handle_exec_io` (exec.rs 44–72) on the first newline-terminated
line, as received from the wire.  `read_line` fails on invalid UTF-8 and
the handler returns silently; otherwise the trimmed line goes through
`serde_json::from_str::<ExecRequest>`: a parse error writes one
`Invalid request: …` line and closes, a parsed config spawns through
`run_with_pty` when `tty` is set and `run_piped` otherwise.  There is no
size bound anywhere on the line. -/
def execDecision (line : List Nat) : ExecDecision :=
  if validUtf8 line then
    match execFromJson (trimAscii line) with
    | some c => if c.tty then .spawnPty c else .spawnPiped c
    | none => .errorLine
  else .silentClose

/-- Whether a decision spawns a command. -/
def spawnsCommand : ExecDecision → Bool
  | .spawnPiped _ => true
  | .spawnPty _ => true
  | _ => false

/-- The newline-terminated config line `{"command":"a…a"}` with an
`n`-byte command of `a`s (byte 97). -/
def cmdLine (n : Nat) : List Nat :=
  [123, 34, 99, 111, 109, 109, 97, 110, 100, 34, 58, 34] ++
    List.replicate n 97 ++ [34, 125, 10]

/-- A syntactically valid exec config line of 8195 bytes (8180 `a`s in
the command string), strictly larger than 8 KiB. -/
def bigConfigLine : List Nat := cmdLine 8180

/-! ## Client: `run_piped` writer trace (exec.rs 75–227) -/

/-- Actions on the substream writer, in order. -/
inductive WEvent where
  | wwrite (bytes : List Nat)
  | wshutdown
  deriving DecidableEq

/-- `format!("Failed to spawn command: {e}\n")`. -/
def spawnErrLine (msg : List Nat) : List Nat :=
  [70, 97, 105, 108, 101, 100, 32, 116, 111, 32, 115, 112, 97, 119, 110, 32,
   99, 111, 109, 109, 97, 110, 100, 58, 32] ++ msg ++ [10]

/-- `format!("{}\n", serde_json::to_string(&ExecResult { exit_code }))` =
`{"exit_code":N}` + newline. -/
def execResultLine (code : Int) : List Nat :=
  [123, 34, 101, 120, 105, 116, 95, 99, 111, 100, 101, 34, 58] ++
    intDec code ++ [125, 10]

/-- `status.ok().and_then(|s| s.code()).unwrap_or(-1)`: outer `none` is a
failed `wait()`, inner `none` a signal-killed child. -/
def pipedExitCode (status : Option (Option Int)) : Int :=
  match status with
  | some (some c) => c
  | _ => -1

/-- `run_piped` as its writer trace.  `spawn = none` models `cmd.spawn()`
failing with OS error text `errMsg`; otherwise `chunks` is the sequence
of stdout/stderr reads forwarded by the output task (all forwarded
before the task is awaited) and `status` the `child.wait()` outcome.
After the output task completes the handler writes the single exit-code
line and shuts the writer down. -/
def run_piped (spawn : Option (List (List Nat) × Option (Option Int)))
    (errMsg : List Nat) : List WEvent :=
  match spawn with
  | none => [.wwrite (spawnErrLine errMsg)]
  | some (chunks, status) =>
      chunks.map .wwrite ++
        [.wwrite (execResultLine (pipedExitCode status)), .wshutdown]

/-! ## Lemma layer -/

theorem listLen_eq (bs : List Nat) : ∀ acc, listLen acc bs = acc + bs.length := by
  induction bs with
  | nil => intro acc; simp [listLen]
  | cons b r ih => intro acc; simp [listLen, ih]; omega

theorem utf8Run_append (xs ys : List Nat) : ∀ st,
    utf8Run st (xs ++ ys) =
      match utf8Run st xs with
      | some st' => utf8Run st' ys
      | none => none := by
  induction xs with
  | nil => intro st; simp [utf8Run]
  | cons b r ih =>
      intro st
      simp only [List.cons_append, utf8Run]
      cases utf8Step st b with
      | none => rfl
      | some st' => exact ih st'

theorem utf8Step_ascii {b : Nat} (h : b < 128) : utf8Step 0 b = some 0 := by
  simp [utf8Step, h]

theorem utf8Run_ascii {xs : List Nat} (h : ∀ b ∈ xs, b < 128) :
    utf8Run 0 xs = some 0 := by
  induction xs with
  | nil => rfl
  | cons b r ih =>
      have hb : b < 128 := h b (List.mem_cons_self b r)
      simp only [utf8Run, utf8Step_ascii hb]
      exact ih fun x hx => h x (List.mem_cons_of_mem b hx)

theorem validUtf8_append {xs ys : List Nat} (hx : validUtf8 xs = true)
    (hy : validUtf8 ys = true) : validUtf8 (xs ++ ys) = true := by
  unfold validUtf8 at *
  rw [utf8Run_append]
  cases hx0 : utf8Run 0 xs with
  | none => rw [hx0] at hx; simp at hx
  | some st =>
      rw [hx0] at hx
      cases st with
      | zero => simpa using hy
      | succ n => simp at hx

theorem validUtf8_ascii {xs : List Nat} (h : ∀ b ∈ xs, b < 128) :
    validUtf8 xs = true := by
  unfold validUtf8
  rw [utf8Run_ascii h]

/-! Decimal rendering and parsing round-trip. -/

theorem natDigitsAux_digits {f : Nat} : ∀ {n d : Nat}, d ∈ natDigitsAux f n →
    48 ≤ d ∧ d ≤ 57 := by
  induction f with
  | zero => intro n d hd; simp [natDigitsAux] at hd
  | succ f ih =>
      intro n d hd
      unfold natDigitsAux at hd
      by_cases hn : n < 10
      · simp [hn] at hd
        omega
      · simp [hn] at hd
        rcases hd with hd | hd
        · exact ih hd
        · have := Nat.mod_lt n (show 0 < 10 by omega)
          omega

theorem natDec_digits {n d : Nat} (hd : d ∈ natDec n) : 48 ≤ d ∧ d ≤ 57 :=
  natDigitsAux_digits hd

theorem intDec_bytes {i : Int} {d : Nat} (hd : d ∈ intDec i) :
    d = 45 ∨ (48 ≤ d ∧ d ≤ 57) := by
  unfold intDec at hd
  by_cases hi : i < 0
  · simp [hi] at hd
    rcases hd with hd | hd
    · exact Or.inl hd
    · exact Or.inr (natDec_digits hd)
  · simp [hi] at hd
    exact Or.inr (natDec_digits hd)

theorem digitsVal_append (xs ys : List Nat) : ∀ acc,
    digitsVal (xs ++ ys) acc =
      match digitsVal xs acc with
      | some a => digitsVal ys a
      | none => none := by
  induction xs with
  | nil => intro acc; simp [digitsVal]
  | cons c r ih =>
      intro acc
      simp only [List.cons_append, digitsVal]
      by_cases hc : 48 ≤ c ∧ c ≤ 57
      · simp [hc, ih]
      · simp [hc]

theorem natDigitsAux_val {f : Nat} : ∀ {n : Nat}, n ≤ f → ∀ acc,
    digitsVal (natDigitsAux (f + 1) n) acc =
      some (acc * 10 ^ (natDigitsAux (f + 1) n).length + n) := by
  induction f with
  | zero =>
      intro n hn acc
      interval_cases n
      simp [natDigitsAux, digitsVal]
  | succ f ih =>
      intro n hn acc
      rw [natDigitsAux]
      by_cases h10 : n < 10
      · have h48 : 48 ≤ 48 + n ∧ 48 + n ≤ 57 := by omega
        simp [h10, digitsVal, h48] <;> omega
      · have hf : n / 10 ≤ f := by omega
        have hrec : f + 1 = f + 1 := rfl
        simp only [h10, if_false]
        rw [digitsVal_append, ih hf acc]
        have hd : 48 ≤ 48 + n % 10 ∧ 48 + n % 10 ≤ 57 := by
          have := Nat.mod_lt n (show 0 < 10 by omega)
          omega
        simp [digitsVal, hd, List.length_append, pow_succ]
        ring_nf
        have : acc * 10 ^ (natDigitsAux (f + 1) (n / 10)).length * 10 +
            (n / 10 * 10 + n % 10) =
            acc * (10 ^ (natDigitsAux (f + 1) (n / 10)).length * 10) +
            (n / 10 * 10 + n % 10) := by ring
        omega

theorem natDec_val (n : Nat) : digitsVal (natDec n) 0 = some n := by
  have := natDigitsAux_val (f := n) (n := n) le_rfl 0
  simpa [natDec] using this

theorem natDec_ne_nil (n : Nat) : natDec n ≠ [] := by
  unfold natDec natDigitsAux
  by_cases h : n < 10 <;> simp [h]

theorem parseI64_natDec (n : Nat) (hn : (n : Int) < 2 ^ 63) :
    parseI64 (natDec n) = some (n : Int) := by
  have hval := natDec_val n
  have hne := natDec_ne_nil n
  have hd : ∀ d ∈ natDec n, 48 ≤ d ∧ d ≤ 57 := fun d hd => natDec_digits hd
  unfold parseI64
  cases hh : natDec n with
  | nil => exact absurd hh hne
  | cons c r =>
      have hc : 48 ≤ c ∧ c ≤ 57 := hd c (hh ▸ List.mem_cons_self c r)
      have hc43 : c ≠ 43 := by omega
      have hc45 : c ≠ 45 := by omega
      have hn' : n < 2 ^ 63 := by exact_mod_cast hn
      rcases Nat.lt_or_ge c 44 with h | h
      · omega
      · rcases Nat.lt_or_ge c 46 with h2 | h2
        · omega
        · simp only [hh] at hval
          cases c with
          | zero => omega
          | succ c' =>
              simp [hval, hn', show ¬ c' + 1 = 43 from by omega,
                show ¬ c' + 1 = 45 from by omega] <;> omega

theorem parseI64_intDec (i : Int) (hlo : -(2 ^ 63) ≤ i) (hhi : i < 2 ^ 63) :
    parseI64 (intDec i) = some i := by
  unfold intDec
  by_cases hneg : i < 0
  · have hn : ((-i).toNat : Int) = -i := Int.toNat_of_nonneg (by omega)
    have hbound : ((-i).toNat : Int) ≤ 2 ^ 63 := by omega
    have hbound' : (-i).toNat ≤ 2 ^ 63 := by exact_mod_cast hbound
    have hval := natDec_val (-i).toNat
    have hne := natDec_ne_nil (-i).toNat
    simp only [hneg, if_true]
    unfold parseI64
    cases hh : natDec (-i).toNat with
    | nil => exact absurd hh hne
    | cons c r =>
        simp only [hh] at hval
        simp [hval, hbound']
        omega
  · have h0 : 0 ≤ i := by omega
    have hn : (i.toNat : Int) = i := Int.toNat_of_nonneg h0
    have : (i.toNat : Int) < 2 ^ 63 := by omega
    simp only [hneg, if_false]
    rw [parseI64_natDec i.toNat this, hn]

/-! Hex round-trip and digit facts. -/

theorem hexVal_hexChar {v : Nat} (h : v < 16) : hexVal (hexChar v) = some v := by
  revert v h
  decide

theorem hexDecode_hexEncode {bs : List Nat} (h : ∀ b ∈ bs, b < 256) :
    hexDecode (hexEncode bs) = some bs := by
  induction bs with
  | nil => rfl
  | cons b r ih =>
      have hb : b < 256 := h b (List.mem_cons_self b r)
      have h1 : b / 16 < 16 := by omega
      have h2 : b % 16 < 16 := by omega
      have hr := ih fun x hx => h x (List.mem_cons_of_mem b hx)
      simp only [hexEncode, hexDecode, hexVal_hexChar h1, hexVal_hexChar h2, hr]
      have : b / 16 * 16 + b % 16 = b := by omega
      rw [this]

theorem hexChar_range {v : Nat} (h : v < 16) :
    (48 ≤ hexChar v ∧ hexChar v ≤ 57) ∨ (97 ≤ hexChar v ∧ hexChar v ≤ 102) := by
  revert v h
  decide

theorem hexEncode_bytes {bs : List Nat} (h : ∀ b ∈ bs, b < 256) :
    ∀ d ∈ hexEncode bs, (48 ≤ d ∧ d ≤ 57) ∨ (97 ≤ d ∧ d ≤ 102) := by
  induction bs with
  | nil => intro d hd; simp [hexEncode] at hd
  | cons b r ih =>
      intro d hd
      have hb : b < 256 := h b (List.mem_cons_self b r)
      have h1 : b / 16 < 16 := by omega
      have h2 : b % 16 < 16 := by omega
      simp only [hexEncode, List.mem_cons] at hd
      rcases hd with rfl | hd
      · exact hexChar_range h1
      rcases hd with rfl | hd
      · exact hexChar_range h2
      · exact ih (fun x hx => h x (List.mem_cons_of_mem b hx)) d hd

/-! base64url round-trip. -/

theorem b64Val_b64Char {s : Nat} (h : s < 64) : b64Val (b64Char s) = some s := by
  revert s h
  decide

theorem b64Decode_b64Encode {bs : List Nat} (h : ∀ b ∈ bs, b < 256) :
    b64Decode (b64Encode bs) = some bs := by
  induction bs using b64Encode.induct with
  | case1 => rfl
  | case2 b1 =>
      have hb1 : b1 < 256 := h b1 (by simp)
      have h1 : b1 / 4 < 64 := by omega
      have h2 : b1 % 4 * 16 < 64 := by omega
      simp only [b64Encode, b64Decode, b64Val_b64Char h1, b64Val_b64Char h2]
      have hz : b1 % 4 * 16 % 16 = 0 := by omega
      have hv : b1 / 4 * 4 + b1 % 4 * 16 / 16 = b1 := by omega
      simp [hz, hv] <;> omega
  | case3 b1 b2 =>
      have hb1 : b1 < 256 := h b1 (by simp)
      have hb2 : b2 < 256 := h b2 (by simp)
      have h1 : b1 / 4 < 64 := by omega
      have h2 : b1 % 4 * 16 + b2 / 16 < 64 := by omega
      have h3 : b2 % 16 * 4 < 64 := by omega
      simp only [b64Encode, b64Decode, b64Val_b64Char h1, b64Val_b64Char h2,
        b64Val_b64Char h3]
      have hz : b2 % 16 * 4 % 4 = 0 := by omega
      have hv1 : (b1 / 4) * 4 + (b1 % 4 * 16 + b2 / 16) / 16 = b1 := by omega
      have hv2 : (b1 % 4 * 16 + b2 / 16) % 16 * 16 + b2 % 16 * 4 / 4 = b2 := by omega
      simp [hz, hv1, hv2] <;> omega
  | case4 b1 b2 b3 rest ih =>
      have hb1 : b1 < 256 := h b1 (by simp)
      have hb2 : b2 < 256 := h b2 (by simp)
      have hb3 : b3 < 256 := h b3 (by simp)
      have h1 : b1 / 4 < 64 := by omega
      have h2 : b1 % 4 * 16 + b2 / 16 < 64 := by omega
      have h3 : b2 % 16 * 4 + b3 / 64 < 64 := by omega
      have h4 : b3 % 64 < 64 := by omega
      have hr : b64Decode (b64Encode rest) = some rest :=
        ih fun x hx => h x (by simp [hx])
      have hv1 : (b1 / 4) * 4 + (b1 % 4 * 16 + b2 / 16) / 16 = b1 := by omega
      have hv2 : (b1 % 4 * 16 + b2 / 16) % 16 * 16 + (b2 % 16 * 4 + b3 / 64) / 4 = b2 := by
        omega
      have hv3 : (b2 % 16 * 4 + b3 / 64) % 4 * 64 + b3 % 64 = b3 := by omega
      cases he : b64Encode rest with
      | nil =>
          rw [he] at hr
          simp only [b64Decode] at hr
          simp only [b64Encode, he, b64Decode, b64Val_b64Char h1, b64Val_b64Char h2,
            b64Val_b64Char h3, b64Val_b64Char h4, hv1, hv2, hv3]
          simp at hr
          simp [hr]
      | cons c cs =>
          simp only [b64Encode, he] at hr ⊢
          simp only [b64Decode, b64Val_b64Char h1, b64Val_b64Char h2,
            b64Val_b64Char h3, b64Val_b64Char h4, hr, hv1, hv2, hv3]

/-! `splitBar` on pipe-free segments. -/

theorem splitBar_ne_nil (bs : List Nat) : splitBar bs ≠ [] := by
  cases bs with
  | nil => simp [splitBar]
  | cons b r =>
      simp only [splitBar]
      cases hr : splitBar r with
      | nil => simp
      | cons seg segs => by_cases hb : b = 124 <;> simp [hb]

theorem splitBar_bar_cons {a rest : List Nat} (ha : 124 ∉ a) :
    splitBar (a ++ 124 :: rest) = a :: splitBar rest := by
  induction a with
  | nil =>
      simp only [List.nil_append, splitBar]
      cases hr : splitBar rest with
      | nil => exact absurd hr (splitBar_ne_nil rest)
      | cons seg segs => simp
  | cons b r ih =>
      have hb : b ≠ 124 := fun hcontr => ha (by simp [hcontr])
      have hr : 124 ∉ r := fun hcontr => ha (List.mem_cons_of_mem b hcontr)
      simp only [List.cons_append, splitBar]
      rw [show r.append (124 :: rest) = r ++ 124 :: rest from rfl, ih hr]
      simp [hb]

theorem splitBar_no_bar {a : List Nat} (ha : 124 ∉ a) : splitBar a = [a] := by
  induction a with
  | nil => rfl
  | cons b r ih =>
      have hb : b ≠ 124 := fun hcontr => ha (by simp [hcontr])
      have hr : 124 ∉ r := fun hcontr => ha (List.mem_cons_of_mem b hcontr)
      simp [splitBar, ih hr, hb]

/-! SHA-256 / HMAC output bytes are bytes. -/

theorem wordBytes_lt {w b : Nat} (hb : b ∈ wordBytes w) : b < 256 := by
  simp only [wordBytes, List.mem_cons] at hb
  rcases hb with rfl | rfl | rfl | rfl | h
  · exact Nat.mod_lt _ (by omega)
  · exact Nat.mod_lt _ (by omega)
  · exact Nat.mod_lt _ (by omega)
  · exact Nat.mod_lt _ (by omega)
  · simp at h

theorem sha256_bytes {msg : List Nat} : ∀ b ∈ sha256 msg, b < 256 := by
  intro b hb
  unfold sha256 at hb
  simp only [List.mem_flatMap] at hb
  obtain ⟨w, _, hbw⟩ := hb
  exact wordBytes_lt hbw

theorem hmacSha256_bytes {key msg : List Nat} : ∀ b ∈ hmacSha256 key msg, b < 256 := by
  intro b hb
  unfold hmacSha256 at hb
  exact sha256_bytes b hb

theorem utf8Step_ge256 {st b : Nat} (hb : 256 ≤ b) : utf8Step st b = none := by
  have h1 : ¬ b < 128 := by omega
  have h2 : ¬ (194 ≤ b ∧ b ≤ 223) := by omega
  have h3 : ¬ b = 224 := by omega
  have h4 : ¬ ((225 ≤ b ∧ b ≤ 236) ∨ b = 238 ∨ b = 239) := by omega
  have h5 : ¬ b = 237 := by omega
  have h6 : ¬ b = 240 := by omega
  have h7 : ¬ (241 ≤ b ∧ b ≤ 243) := by omega
  have h8 : ¬ b = 244 := by omega
  have h9 : ¬ (128 ≤ b ∧ b ≤ 191) := by omega
  have h10 : ¬ (160 ≤ b ∧ b ≤ 191) := by omega
  have h11 : ¬ (128 ≤ b ∧ b ≤ 159) := by omega
  have h12 : ¬ (144 ≤ b ∧ b ≤ 191) := by omega
  have h13 : ¬ (128 ≤ b ∧ b ≤ 143) := by omega
  rcases st with _ | _ | _ | _ | _ | _ | _ | _ | st <;>
    simp [utf8Step, h1, h2, h3, h4, h5, h6, h7, h8, h9, h10, h11, h12, h13]

theorem validUtf8_bytes {bs : List Nat} (h : validUtf8 bs = true) :
    ∀ b ∈ bs, b < 256 := by
  intro b hb
  by_contra hge
  push_neg at hge
  obtain ⟨pre, suf, rfl⟩ := List.append_of_mem hb
  unfold validUtf8 at h
  rw [utf8Run_append] at h
  cases hpre : utf8Run 0 pre with
  | none => rw [hpre] at h; simp at h
  | some st =>
      rw [hpre] at h
      simp only [utf8Run, utf8Step_ge256 hge] at h
      simp at h

/-- Bytes of the ASCII tail `|<decimal>|<hex>` of a token payload. -/
theorem token_tail_ascii {e : Int} {mac : List Nat} (hmac : ∀ b ∈ mac, b < 256) :
    ∀ b ∈ (124 : Nat) :: (intDec e ++ 124 :: hexEncode mac), b < 128 := by
  intro b hb
  simp only [List.mem_cons, List.mem_append] at hb
  rcases hb with rfl | hb | rfl | hb
  · omega
  · rcases intDec_bytes hb with rfl | h <;> omega
  · omega
  · rcases hexEncode_bytes hmac b hb with h | h <;> omega

/-- `verify_tunnel_token` applied to a token from `issue_tunnel_token`
with the same secret: succeeds exactly when the clock has not yet passed
the expiry (`now ≤ expiry`, since the source rejects on `now > expiry`). -/
theorem verify_issue_eq (node_id secret : List Nat) (ttl : Nat) (now0 now : Int)
    (hpipe : 124 ∉ node_id) (hutf : validUtf8 node_id = true)
    (hlo : -(2 ^ 63) ≤ now0 + u64AsI64 ttl) (hhi : now0 + u64AsI64 ttl < 2 ^ 63) :
    verify_tunnel_token (issue_tunnel_token node_id ttl secret now0) secret now =
      if now ≤ now0 + u64AsI64 ttl then some node_id else none := by
  set e : Int := now0 + u64AsI64 ttl with he
  set mac : List Nat := hmacSha256 secret (node_id ++ 124 :: intDec e) with hm
  have hmacb : ∀ b ∈ mac, b < 256 := fun b hb => hmacSha256_bytes b (hm ▸ hb)
  have hnid : ∀ b ∈ node_id, b < 256 := validUtf8_bytes hutf
  have htail := token_tail_ascii (e := e) hmacb
  have hall : ∀ b ∈ (node_id ++ 124 :: intDec e) ++ 124 :: hexEncode mac, b < 256 := by
    intro b hb
    simp [List.mem_append, List.mem_cons] at hb
    rcases hb with hb | rfl | hb | rfl | hb
    · exact hnid b hb
    · omega
    · rcases intDec_bytes hb with rfl | h <;> omega
    · omega
    · rcases hexEncode_bytes hmacb b hb with h | h <;> omega
  have hform : issue_tunnel_token node_id ttl secret now0 =
      b64Encode ((node_id ++ 124 :: intDec e) ++ 124 :: hexEncode mac) := rfl
  have hdec : b64Decode (issue_tunnel_token node_id ttl secret now0) =
      some ((node_id ++ 124 :: intDec e) ++ 124 :: hexEncode mac) := by
    rw [hform]
    exact b64Decode_b64Encode hall
  have hassoc : (node_id ++ 124 :: intDec e) ++ 124 :: hexEncode mac =
      node_id ++ ((124 : Nat) :: (intDec e ++ 124 :: hexEncode mac)) := by
    simp [List.append_assoc]
  have hvalid : validUtf8 ((node_id ++ 124 :: intDec e) ++ 124 :: hexEncode mac) = true := by
    rw [hassoc]
    exact validUtf8_append hutf (validUtf8_ascii htail)
  have hd45 : (124 : Nat) ∉ intDec e := by
    intro hmem
    rcases intDec_bytes hmem with h | h <;> omega
  have hd46 : (124 : Nat) ∉ hexEncode mac := by
    intro hmem
    rcases hexEncode_bytes hmacb _ hmem with h | h <;> omega
  have hsplit : splitBar ((node_id ++ 124 :: intDec e) ++ 124 :: hexEncode mac) =
      [node_id, intDec e, hexEncode mac] := by
    rw [hassoc, splitBar_bar_cons hpipe, splitBar_bar_cons hd45, splitBar_no_bar hd46]
  simp only [verify_tunnel_token, hdec, hvalid, if_true, hsplit,
    parseI64_intDec e hlo hhi]
  by_cases hnow : now > e
  · rw [if_pos hnow, if_neg (by omega)]
  · rw [if_neg hnow, hexDecode_hexEncode hmacb]
    show (if mac = hmacSha256 secret (node_id ++ 124 :: intDec e) then some node_id
      else none) = _
    rw [if_pos hm, if_pos (by omega)]

/-- Inversion: the only tokens `verify_tunnel_token` accepts decode to
`agent_id|expiry|hex(mac)` with an unexpired, correctly signed payload —
every malformed, expired or wrongly-signed token is rejected. -/
theorem verify_inversion {tok secret : List Nat} {now : Int} {a : List Nat}
    (h : verify_tunnel_token tok secret now = some a) :
    ∃ decoded ds hs e, b64Decode tok = some decoded ∧ validUtf8 decoded = true ∧
      splitBar decoded = [a, ds, hs] ∧ parseI64 ds = some e ∧ now ≤ e ∧
      hexDecode hs = some (hmacSha256 secret (a ++ 124 :: intDec e)) := by
  unfold verify_tunnel_token at h
  split at h
  · exact absurd h (by simp)
  next decoded hdec =>
    by_cases hv : validUtf8 decoded = true
    · rw [if_pos hv] at h
      split at h
      next nid ebytes sigbytes hsp =>
        split at h
        · exact absurd h (by simp)
        next e hpe =>
          split at h
          · exact absurd h (by simp)
          next hnow =>
            split at h
            · exact absurd h (by simp)
            next sig hhx =>
              by_cases hsig : sig = hmacSha256 secret (nid ++ 124 :: intDec e)
              · simp only [hsig, if_pos, Option.some_inj] at h
                subst h
                refine ⟨decoded, ebytes, sigbytes, e, hdec, hv, hsp, hpe, by omega, ?_⟩
                rw [hhx, hsig]
              · simp [hsig] at h
      next hne => exact absurd h (by simp)
    · rw [if_neg hv] at h
      exact absurd h (by simp)

/-! Evaluation of `execDecision` on the `cmdLine n` family. -/

theorem skipJsonWs_cons {b : Nat} (h : jsonWsByte b = false) (r : List Nat) :
    skipJsonWs (b :: r) = b :: r := by
  simp [skipJsonWs, h]

theorem parseJstrAux_plain {content : List Nat}
    (hc : ∀ c ∈ content, 32 ≤ c ∧ c ≠ 34 ∧ c ≠ 92) :
    ∀ f rest acc, content.length + 1 ≤ f →
      parseJstrAux f (content ++ 34 :: rest) acc = some (acc.reverse ++ content, rest) := by
  induction content with
  | nil =>
      intro f rest acc hf
      obtain ⟨g, rfl⟩ : ∃ g, f = g + 1 := ⟨f - 1, by omega⟩
      simp [parseJstrAux]
  | cons c cs ih =>
      intro f rest acc hf
      obtain ⟨g, rfl⟩ : ∃ g, f = g + 1 := ⟨f - 1, by omega⟩
      have hcc := hc c (List.mem_cons_self c cs)
      have hcs : ∀ x ∈ cs, 32 ≤ x ∧ x ≠ 34 ∧ x ≠ 92 :=
        fun x hx => hc x (List.mem_cons_of_mem c hx)
      have hg : cs.length + 1 ≤ g := by simp at hf; omega
      simp only [List.cons_append, parseJstrAux]
      rw [if_neg (by omega), if_neg (by omega), if_neg (by omega)]
      show parseJstrAux g (cs ++ 34 :: rest) (c :: acc) = _
      rw [ih hcs g rest (c :: acc) hg]
      simp

theorem parseJstr_plain {content : List Nat}
    (hc : ∀ c ∈ content, 32 ≤ c ∧ c ≠ 34 ∧ c ≠ 92) {f : Nat} (rest : List Nat)
    (hf : content.length + 1 ≤ f) :
    parseJstr f (content ++ 34 :: rest) = some (content, rest) := by
  unfold parseJstr
  rw [parseJstrAux_plain hc f rest [] hf]
  simp

theorem trimAscii_wrap (mid : List Nat) :
    trimAscii (123 :: (mid ++ [125, 10])) = 123 :: (mid ++ [125]) := by
  unfold trimAscii
  rw [List.dropWhile_cons, if_neg (by simp [isWsByte])]
  have h1 : ((123 : Nat) :: (mid ++ [125, 10])).reverse =
      10 :: 125 :: (mid.reverse ++ [123]) := by
    simp
  rw [h1]
  rw [List.dropWhile_cons, if_pos (by simp [isWsByte])]
  rw [List.dropWhile_cons, if_neg (by simp [isWsByte])]
  have h2 : ((125 : Nat) :: (mid.reverse ++ [123])).reverse =
      123 :: (mid ++ [125]) := by
    simp
  rw [h2]

/-- Parsing the quoted command value. -/
theorem parseCore_cmdval (n : Nat) : ∀ f, n + 2 ≤ f →
    parseCore f 0 (34 :: (List.replicate n 97 ++ [34, 125])) =
      some (.val (.jstr (List.replicate n 97)), [125]) := by
  intro f hf
  obtain ⟨g, rfl⟩ : ∃ g, f = g + 1 := ⟨f - 1, by omega⟩
  have hrep : ∀ c ∈ List.replicate n 97, 32 ≤ c ∧ c ≠ 34 ∧ c ≠ 92 := by
    intro c hcm
    rw [List.eq_of_mem_replicate hcm]
    omega
  simp only [parseCore, if_true]
  rw [skipJsonWs_cons (by decide)]
  simp only []
  rw [if_pos trivial]
  rw [parseJstr_plain hrep [125] (by simp; omega)]
  simp

/-- Parsing the single-member object body `"command":"a…a"}`. -/
theorem parseCore_cmdfields (n : Nat) : ∀ f, n + 10 ≤ f →
    parseCore f 1
      (34 :: 99 :: 111 :: 109 :: 109 :: 97 :: 110 :: 100 :: 34 :: 58 :: 34 ::
        (List.replicate n 97 ++ [34, 125])) =
      some (.fields [([99, 111, 109, 109, 97, 110, 100],
        .jstr (List.replicate n 97))], []) := by
  intro f hf
  obtain ⟨g, rfl⟩ : ∃ g, f = g + 1 := ⟨f - 1, by omega⟩
  have hkey : ∀ c ∈ ([99, 111, 109, 109, 97, 110, 100] : List Nat),
      32 ≤ c ∧ c ≠ 34 ∧ c ≠ 92 := by decide
  simp only [parseCore]
  rw [if_pos trivial]
  rw [skipJsonWs_cons (by decide)]
  simp only []
  rw [if_pos trivial]
  have hkeyshape :
      (99 : Nat) :: 111 :: 109 :: 109 :: 97 :: 110 :: 100 :: 34 :: 58 :: 34 ::
        (List.replicate n 97 ++ [34, 125]) =
      ([99, 111, 109, 109, 97, 110, 100] : List Nat) ++
        34 :: (58 :: 34 :: (List.replicate n 97 ++ [34, 125])) := rfl
  rw [hkeyshape, parseJstr_plain hkey _ (by simp; omega)]
  simp only []
  rw [skipJsonWs_cons (by decide)]
  simp only []
  rw [if_pos trivial]
  rw [parseCore_cmdval n g (by omega)]
  simp only []
  rw [skipJsonWs_cons (by decide)]
  simp only []
  simp

/-- Parsing the whole config object `{"command":"a…a"}`. -/
theorem parseCore_cmdobj (n : Nat) : ∀ f, n + 11 ≤ f →
    parseCore f 0
      (123 :: 34 :: 99 :: 111 :: 109 :: 109 :: 97 :: 110 :: 100 :: 34 :: 58 :: 34 ::
        (List.replicate n 97 ++ [34, 125])) =
      some (.val (.jobj [([99, 111, 109, 109, 97, 110, 100],
        .jstr (List.replicate n 97))]), []) := by
  intro f hf
  obtain ⟨g, rfl⟩ : ∃ g, f = g + 1 := ⟨f - 1, by omega⟩
  simp only [parseCore, if_true]
  rw [skipJsonWs_cons (by decide)]
  simp only []
  rw [if_neg (by omega), if_pos trivial]
  rw [skipJsonWs_cons (by decide)]
  simp only []
  rw [if_neg (by omega)]
  rw [parseCore_cmdfields n g (by omega)]

theorem trimAscii_cmdLine (n : Nat) :
    trimAscii (cmdLine n) =
      123 :: 34 :: 99 :: 111 :: 109 :: 109 :: 97 :: 110 :: 100 :: 34 :: 58 :: 34 ::
        (List.replicate n 97 ++ [34, 125]) := by
  have hshape : cmdLine n =
      123 :: ((34 :: 99 :: 111 :: 109 :: 109 :: 97 :: 110 :: 100 :: 34 :: 58 :: 34 ::
        (List.replicate n 97 ++ [34])) ++ [125, 10]) := by
    simp [cmdLine]
  rw [hshape, trimAscii_wrap]
  simp

theorem cmdLine_ascii (n : Nat) : ∀ b ∈ cmdLine n, b < 128 := by
  have h1 : ∀ x ∈ ([123, 34, 99, 111, 109, 109, 97, 110, 100, 34, 58, 34] : List Nat),
      x < 128 := by decide
  have h3 : ∀ x ∈ ([34, 125, 10] : List Nat), x < 128 := by decide
  intro b hb
  simp only [cmdLine, List.mem_append] at hb
  rcases hb with (hb | hb) | hb
  · exact h1 b hb
  · rw [List.eq_of_mem_replicate hb]
    omega
  · exact h3 b hb

theorem execDecision_cmdLine (n : Nat) :
    execDecision (cmdLine n) =
      .spawnPiped ⟨List.replicate n 97, false, none, none⟩ := by
  have hutf : validUtf8 (cmdLine n) = true := validUtf8_ascii (cmdLine_ascii n)
  have hlen : (trimAscii (cmdLine n)).length = n + 14 := by
    rw [trimAscii_cmdLine]
    simp
  have hfuel : listLen 1 (trimAscii (cmdLine n)) = n + 15 := by
    rw [listLen_eq, hlen]
    omega
  have hparse : parseJson (trimAscii (cmdLine n)) =
      some (.jobj [([99, 111, 109, 109, 97, 110, 100],
        .jstr (List.replicate n 97))], []) := by
    unfold parseJson
    rw [hfuel, trimAscii_cmdLine, parseCore_cmdobj n (n + 15) (by omega)]
  have hext : extractExec
      [([99, 111, 109, 109, 97, 110, 100], Jval.jstr (List.replicate n 97))]
      none none none none = some ⟨List.replicate n 97, false, none, none⟩ := rfl
  have hjson : execFromJson (trimAscii (cmdLine n)) =
      some ⟨List.replicate n 97, false, none, none⟩ := by
    unfold execFromJson
    rw [hparse]
    simp only []
    rw [if_pos (by rfl), hext]
  unfold execDecision
  rw [hutf, if_pos rfl, hjson]
  simp

/-! Session-map lemmas. -/

theorem removeTunnel_not_mem (k : List Nat) (s : Nat) (m : List (List Nat × Nat)) :
    (k, s) ∉ removeTunnel k m := by
  intro hmem
  unfold removeTunnel at hmem
  have := List.of_mem_filter hmem
  simp at this

theorem removeTunnel_key_not_mem (k : List Nat) (m : List (List Nat × Nat)) :
    k ∉ tunnelKeys (removeTunnel k m) := by
  intro hmem
  unfold tunnelKeys removeTunnel at hmem
  rw [List.mem_map] at hmem
  obtain ⟨e, he, hk⟩ := hmem
  have := List.of_mem_filter he
  simp [hk] at this

theorem removeTunnel_keys_nodup {m : List (List Nat × Nat)}
    (h : (tunnelKeys m).Nodup) (k : List Nat) :
    (tunnelKeys (removeTunnel k m)).Nodup := by
  unfold tunnelKeys removeTunnel
  exact h.sublist (List.Sublist.map Prod.fst (List.filter_sublist m))

theorem register_keys_nodup {m : List (List Nat × Nat)}
    (h : (tunnelKeys m).Nodup) (k : List Nat) (s : Nat) :
    (tunnelKeys (register_tunnel k s m)).Nodup := by
  unfold register_tunnel
  show (List.map Prod.fst ((k, s) :: removeTunnel k m)).Nodup
  rw [List.map_cons]
  exact List.Nodup.cons (removeTunnel_key_not_mem k m) (removeTunnel_keys_nodup h k)

theorem get_tunnel_register (k : List Nat) (s : Nat) (m : List (List Nat × Nat)) :
    get_tunnel k (register_tunnel k s m) = some s := by
  simp [register_tunnel, get_tunnel]

theorem get_tunnel_removeTunnel {k k' : List Nat} (h : k' ≠ k)
    (m : List (List Nat × Nat)) :
    get_tunnel k' (removeTunnel k m) = get_tunnel k' m := by
  induction m with
  | nil => rfl
  | cons e r ih =>
      obtain ⟨ek, es⟩ := e
      by_cases hek : ek = k
      · have hfilter : removeTunnel k ((ek, es) :: r) = removeTunnel k r := by
          simp [removeTunnel, List.filter_cons, hek]
        have hne : ¬ ek = k' := by
          rw [hek]
          exact fun hc => h hc.symm
        rw [hfilter, ih]
        simp [get_tunnel, hne]
      · have hfilter : removeTunnel k ((ek, es) :: r) = (ek, es) :: removeTunnel k r := by
          simp [removeTunnel, List.filter_cons, hek]
        rw [hfilter]
        by_cases hk' : ek = k'
        · simp [get_tunnel, hk']
        · simp [get_tunnel, hk', ih]

theorem removeTunnel_removeTunnel (k : List Nat) (m : List (List Nat × Nat)) :
    removeTunnel k (removeTunnel k m) = removeTunnel k m := by
  unfold removeTunnel
  rw [List.filter_filter]
  simp

/-! Forward-registry lemmas. -/

theorem getForward_stripAcl (h : List Nat) (f : List (List Nat × ForwardMeta)) :
    getForward h (stripAcl h f) =
      (getForward h f).map fun m => ⟨m.node_id, m.target_port, none⟩ := by
  induction f with
  | nil => rfl
  | cons e r ih =>
      obtain ⟨ek, em⟩ := e
      by_cases hek : ek = h
      · subst hek
        simp only [stripAcl, List.map_cons]
        rw [if_pos trivial]
        simp [getForward]
      · simp only [stripAcl, List.map_cons]
        rw [if_neg (by simpa using hek)]
        simp only [getForward]
        rw [if_neg hek, if_neg hek]
        exact ih

/-- Either the handshake fails and nothing happens, or some node id is
registered with the fresh session after the old entry is removed. -/
theorem handle_control_cases (line secret : List Nat) (now : Int)
    (tunnels : List (List Nat × Nat)) (sess : Nat) :
    handle_control_tunnel line secret now tunnels sess = ⟨tunnels, [], none⟩ ∨
    ∃ nid, handle_control_tunnel line secret now tunnels sess =
      ⟨register_tunnel nid sess (removeTunnel nid tunnels), [], some nid⟩ := by
  simp only [handle_control_tunnel]
  by_cases hline : line.isEmpty
  · rw [if_pos hline]
    exact Or.inl rfl
  · rw [if_neg hline]
    by_cases hempty : ((extract_kv line nodeIdKey).getD []).isEmpty ∨
        ((extract_kv line tokenKey).getD []).isEmpty
    · rw [if_pos hempty]
      exact Or.inl rfl
    · rw [if_neg hempty]
      cases hv : verify_tunnel_token ((extract_kv line tokenKey).getD []) secret now with
      | none => exact Or.inl rfl
      | some id =>
          simp only []
          by_cases hid : id = (extract_kv line nodeIdKey).getD []
          · rw [if_pos hid]
            exact Or.inr ⟨_, rfl⟩
          · rw [if_neg hid]
            exact Or.inl rfl

/-! ## Claim theorems -/

/-- Claim C1 (counterexample): at `now = expiry` the code still accepts
the token, so "verifies iff the current time is strictly before the
expiry" is false: a token issued at time 5 with TTL 0 (expiry 5)
verifies at time 5, although 5 is not strictly before the expiry. -/
theorem C1_strict_expiry_counterexample :
    verify_tunnel_token (issue_tunnel_token [97] 0 [107] 5) [107] 5 = some [97] ∧
      ¬ ((5 : Int) < 5 + u64AsI64 0) := by
  constructor
  · rw [verify_issue_eq [97] [107] 0 5 5 (by decide) (by decide) (by decide) (by decide)]
    rw [if_pos (by decide)]
  · decide

/-- Claim C1 (amended): a token produced by `issue_tunnel_token`
verifies with the same secret to the original agent id iff the current
time is at or before the token's expiry (the source rejects only when
`now > expiry`); and `verify_tunnel_token` accepts nothing but a
well-formed base64url-encoded `agent_id|expiry|hex(HMAC)` whose expiry
has not passed and whose signature equals the recomputed HMAC — every
malformed, expired, or wrongly-signed token is rejected. -/
theorem C1_token_roundtrip_amended :
    (∀ node_id secret : List Nat, ∀ ttl : Nat, ∀ now0 now : Int,
      124 ∉ node_id → validUtf8 node_id = true →
      -(2 ^ 63) ≤ now0 + u64AsI64 ttl → now0 + u64AsI64 ttl < 2 ^ 63 →
      (verify_tunnel_token (issue_tunnel_token node_id ttl secret now0) secret now =
          some node_id ↔ now ≤ now0 + u64AsI64 ttl)) ∧
    (∀ tok secret : List Nat, ∀ now : Int, ∀ a : List Nat,
      verify_tunnel_token tok secret now = some a →
      ∃ decoded ds hs e, b64Decode tok = some decoded ∧ validUtf8 decoded = true ∧
        splitBar decoded = [a, ds, hs] ∧ parseI64 ds = some e ∧ now ≤ e ∧
        hexDecode hs = some (hmacSha256 secret (a ++ 124 :: intDec e))) := by
  constructor
  · intro node_id secret ttl now0 now hpipe hutf hlo hhi
    rw [verify_issue_eq node_id secret ttl now0 now hpipe hutf hlo hhi]
    constructor
    · intro hv
      by_contra hn
      rw [if_neg hn] at hv
      simp at hv
    · intro hle
      rw [if_pos hle]
  · intro tok secret now a h
    exact verify_inversion h

/-- Claim C1 (witness): issue with TTL 30 at time 100, verify at 120. -/
theorem C1_token_roundtrip_witness :
    verify_tunnel_token (issue_tunnel_token [97] 30 [107] 100) [107] 120 = some [97] :=
  (C1_token_roundtrip_amended.1 [97] [107] 30 100 120 (by decide) (by decide)
    (by decide) (by decide)).mpr (by decide)

/-- Claim C2: a handshake line without the node-id key or the token key,
or whose token fails verification or verifies to a different id, leaves
the session map unchanged, writes no response bytes, and registers
nothing. -/
theorem C2_handshake_failure_silent (line secret : List Nat) (now : Int)
    (tunnels : List (List Nat × Nat)) (sess : Nat)
    (hbad : extract_kv line nodeIdKey = none ∨ extract_kv line tokenKey = none ∨
      (∀ id, verify_tunnel_token ((extract_kv line tokenKey).getD []) secret now =
        some id → id ≠ (extract_kv line nodeIdKey).getD [])) :
    handle_control_tunnel line secret now tunnels sess = ⟨tunnels, [], none⟩ := by
  simp only [handle_control_tunnel]
  by_cases hline : line.isEmpty
  · rw [if_pos hline]
  · rw [if_neg hline]
    by_cases hempty : ((extract_kv line nodeIdKey).getD []).isEmpty ∨
        ((extract_kv line tokenKey).getD []).isEmpty
    · rw [if_pos hempty]
    · rw [if_neg hempty]
      cases hv : verify_tunnel_token ((extract_kv line tokenKey).getD []) secret now with
      | none => rfl
      | some id =>
          simp only []
          by_cases hid : id = (extract_kv line nodeIdKey).getD []
          · exfalso
            rcases hbad with hb | hb | hb
            · exact hempty (Or.inl (by rw [hb]; rfl))
            · exact hempty (Or.inr (by rw [hb]; rfl))
            · exact hb id hv hid
          · simp only [if_neg hid]

/-- Claim C2 (witness): an empty handshake line is rejected silently. -/
theorem C2_handshake_failure_witness :
    handle_control_tunnel [] [107] 0 [([98], 3)] 7 = ⟨[([98], 3)], [], none⟩ :=
  C2_handshake_failure_silent [] [107] 0 [([98], 3)] 7 (Or.inl (by decide))

/-- Claim C3: the session map keeps at most one session per node id
(distinct keys are preserved by every handshake), and a successful
handshake displaces any old session for that id: afterwards the id maps
to the new session, it is the only session for that id, and every other
id's entry is untouched. -/
theorem C3_single_session_per_agent (line secret : List Nat) (now : Int)
    (tunnels : List (List Nat × Nat)) (sess : Nat)
    (hnodup : (tunnelKeys tunnels).Nodup) :
    (tunnelKeys (handle_control_tunnel line secret now tunnels sess).tunnels).Nodup ∧
    (∀ nid, (handle_control_tunnel line secret now tunnels sess).registered = some nid →
      get_tunnel nid (handle_control_tunnel line secret now tunnels sess).tunnels =
          some sess ∧
      (∀ s0, (nid, s0) ∈ (handle_control_tunnel line secret now tunnels sess).tunnels →
        s0 = sess) ∧
      (∀ k, k ≠ nid →
        get_tunnel k (handle_control_tunnel line secret now tunnels sess).tunnels =
          get_tunnel k tunnels)) := by
  rcases handle_control_cases line secret now tunnels sess with hres | ⟨nid, hres⟩
  · rw [hres]
    exact ⟨hnodup, fun nid hcontr => by simp at hcontr⟩
  · rw [hres]
    refine ⟨register_keys_nodup (removeTunnel_keys_nodup hnodup nid) nid sess, ?_⟩
    intro nid' hreg
    simp only at hreg
    obtain rfl : nid = nid' := by simpa using hreg
    refine ⟨get_tunnel_register nid sess _, ?_, ?_⟩
    · intro s0 hmem
      simp only [register_tunnel, List.mem_cons] at hmem
      rcases hmem with heq | hmem
      · exact congrArg Prod.snd heq
      · exact absurd hmem (removeTunnel_not_mem nid s0 _)
    · intro k hk
      simp only [register_tunnel]
      have hk' : ¬ nid = k := fun hc => hk hc.symm
      simp only [get_tunnel, if_neg hk']
      rw [get_tunnel_removeTunnel hk, get_tunnel_removeTunnel hk]

/-- Claim C3 (witness): registering agent `[98]` over an old session. -/
theorem C3_single_session_witness :
    (tunnelKeys (handle_control_tunnel [] [107] 0 [([98], 3)] 7).tunnels).Nodup :=
  (C3_single_session_per_agent [] [107] 0 [([98], 3)] 7 (by decide)).1

/-- Claim C4: an inbound forward connection is shut down without opening
a substream when the host has no mapping, when the mapped agent has no
session, or when the allow-list excludes the peer's IP; otherwise
exactly one substream is opened on the agent's session and the single
line `"<target_port>\n"` is written on it before the bidirectional copy
starts. -/
theorem C4_forward_gate (forwards : List (List Nat × ForwardMeta))
    (tunnels : List (List Nat × Nat)) (host : List Nat)
    (peer : Option (List Nat)) (openOk writeOk : Bool) :
    (getForward host forwards = none →
      handle_forward_connection forwards tunnels host peer openOk writeOk =
        [.closeInbound]) ∧
    (∀ meta, getForward host forwards = some meta →
      get_tunnel meta.node_id tunnels = none →
      handle_forward_connection forwards tunnels host peer openOk writeOk =
        [.closeInbound]) ∧
    (∀ meta ips ip, getForward host forwards = some meta →
      meta.allowed_ips = some ips → peer = some ip → ip ∉ ips →
      handle_forward_connection forwards tunnels host peer openOk writeOk =
        [.closeInbound]) ∧
    (∀ meta s, getForward host forwards = some meta →
      get_tunnel meta.node_id tunnels = some s →
      (∀ ip ips, peer = some ip → meta.allowed_ips = some ips → ip ∈ ips) →
      openOk = true → writeOk = true →
      handle_forward_connection forwards tunnels host peer openOk writeOk =
        [.openSub meta.node_id, .subWrite (natDec meta.target_port ++ [10]),
          .proxy]) := by
  refine ⟨?_, ?_, ?_, ?_⟩
  · intro hmiss
    simp only [handle_forward_connection, hmiss]
    cases peer <;> simp
  · intro meta hmeta hsess
    simp only [handle_forward_connection, hmeta, hsess]
    cases peer with
    | none => simp
    | some ip =>
        simp only []
        cases hips : meta.allowed_ips with
        | none => simp [hsess]
        | some ips =>
            by_cases hin : ip ∈ ips
            · simp [hin, hsess]
            · simp [hin]
  · intro meta ips ip hmeta hips hpeer hnin
    subst hpeer
    simp only [handle_forward_connection, hmeta, hips]
    simp [hnin]
  · intro meta s hmeta hsess hacl hopen hwrite
    subst hopen
    subst hwrite
    simp only [handle_forward_connection, hmeta, hsess]
    cases peer with
    | none => simp
    | some ip =>
        simp only []
        cases hips : meta.allowed_ips with
        | none => simp [hsess]
        | some ips =>
            have hin : ip ∈ ips := hacl ip ips rfl hips
            simp [hin, hsess]

/-- Claim C4 (witness): a registered host with a live session and no
allow-list yields one substream carrying the port header 80. -/
theorem C4_forward_gate_witness :
    handle_forward_connection [([104], ⟨[97], 80, none⟩)] [([97], 5)] [104]
      (some [49]) true true =
      [.openSub [97], .subWrite (natDec 80 ++ [10]), .proxy] :=
  (C4_forward_gate [([104], ⟨[97], 80, none⟩)] [([97], 5)] [104] (some [49])
      true true).2.2.2 ⟨[97], 80, none⟩ 5 (by decide) (by decide)
    (fun ip ips hip hips => by simp at hips) rfl rfl

/-- Claim C9: when the peer address is unknown (`peer_addr()` failed)
the whole ACL block is skipped: the connection is handled exactly as if
the host's forward mapping carried no IP allow-list. -/
theorem C9_unknown_peer_skips_acl (forwards : List (List Nat × ForwardMeta))
    (tunnels : List (List Nat × Nat)) (host : List Nat) (openOk writeOk : Bool) :
    handle_forward_connection forwards tunnels host none openOk writeOk =
      handle_forward_connection (stripAcl host forwards) tunnels host none
        openOk writeOk := by
  simp only [handle_forward_connection, getForward_stripAcl]
  cases hmeta : getForward host forwards with
  | none => simp
  | some meta => simp

/-- Claim C5: in `run_piped`, a successful spawn produces the child's
output, then exactly one `{"exit_code":N}` line, then the writer
shutdown — in that order; a failed spawn produces a single plaintext
error line, never an exit-code line and no shutdown, and that error line
is distinct from every exit-code line, so the final JSON line
distinguishes clean completion from a command that never ran. -/
theorem C5_exit_code_protocol (errMsg : List Nat) (chunks : List (List Nat))
    (status : Option (Option Int)) :
    (run_piped (some (chunks, status)) errMsg =
      chunks.map .wwrite ++
        [.wwrite (execResultLine (pipedExitCode status)), .wshutdown]) ∧
    (run_piped none errMsg = [.wwrite (spawnErrLine errMsg)]) ∧
    (∀ n : Int, spawnErrLine errMsg ≠ execResultLine n) ∧
    WEvent.wshutdown ∉ run_piped none errMsg := by
  refine ⟨rfl, rfl, ?_, ?_⟩
  · intro n h
    simp [spawnErrLine, execResultLine] at h
  · simp [run_piped]

/-- Claim C6: the input-processing loop of the terminal/PTY handlers
never completes once a 5-byte resize frame is split across two network
reads: with the first read delivering only `FF 00`, the inner
`while !input_buf.is_empty()` loop consumes nothing (the resize branch
needs 5 bytes and the payload before the next `0xFF` is empty), so it
spins for every amount of fuel and the second read — carrying the rest
of the frame — is never consumed.  The claimed single parsed resize
never happens. -/
theorem C6_split_resize_frame_diverges (fuel : Nat) :
    drainInput fuel [255, 0] = none ∧
    feedReads fuel [[255, 0], [50, 0, 120]] = none := by
  induction fuel with
  | zero => exact ⟨rfl, rfl⟩
  | succ f ih =>
      have hd : drainInput (f + 1) [255, 0] = none := by
        simp only [drainInput]
        rw [if_neg (by decide)]
        simp [idx255, ih.1]
      exact ⟨hd, by simp [feedReads, hd]⟩

/-- Claim C7: a resize frame `FF rows_hi rows_lo cols_hi cols_lo` built
from any pair of 16-bit values parses back to exactly that pair, as a
single resize event with none of the five bytes forwarded to the PTY. -/
theorem C7_resize_roundtrip (rows cols fuel : Nat)
    (hr : rows < 65536) (hc : cols < 65536) :
    drainInput (fuel + 1) (encodeResize rows cols) =
      some [.resize rows cols] := by
  have h1 : rows / 256 * 256 + rows % 256 = rows := by omega
  have h2 : cols / 256 * 256 + cols % 256 = cols := by omega
  simp only [encodeResize, drainInput]
  rw [if_pos (by simp)]
  cases fuel <;> simp [drainInput, h1, h2]

/-- Claim C7 (witness): the three pairs named in the spec. -/
theorem C7_resize_roundtrip_witness :
    drainInput 1 (encodeResize 24 80) = some [.resize 24 80] ∧
    drainInput 1 (encodeResize 50 120) = some [.resize 50 120] ∧
    drainInput 1 (encodeResize 200 500) = some [.resize 200 500] :=
  ⟨C7_resize_roundtrip 24 80 0 (by decide) (by decide),
   C7_resize_roundtrip 50 120 0 (by decide) (by decide),
   C7_resize_roundtrip 200 500 0 (by decide) (by decide)⟩

/-- Claim C10: the terminal handler consumes exactly the first five
bytes of the substream before spawning the shell; the main loop sees
only the remainder, the size defaults to 24×80 when the first byte is
not `0xFF`, and is the frame's big-endian pair when it is. -/
theorem C10_terminal_prologue (input : List Nat) (fuel : Nat)
    (hlen : 5 ≤ input.length) :
    (terminalSetup input).2 = input.drop 5 ∧
    handle_terminal_io fuel input =
      ((terminalSetup input).1, drainInput fuel (input.drop 5)) ∧
    (∀ b0 rest, input = b0 :: rest → b0 ≠ 255 →
      (terminalSetup input).1 = (24, 80)) ∧
    (∀ b0 b1 b2 b3 b4 rest, input = b0 :: b1 :: b2 :: b3 :: b4 :: rest →
      b0 = 255 → (terminalSetup input).1 = (b1 * 256 + b2, b3 * 256 + b4)) := by
  match input, hlen with
  | b0 :: b1 :: b2 :: b3 :: b4 :: rest, _ =>
    refine ⟨rfl, rfl, ?_, ?_⟩
    · intro c0 crest hc hne
      obtain rfl : b0 = c0 := (List.cons.injEq _ _ _ _ ▸ hc).1
      simp only [terminalSetup]
      rw [if_neg hne]
    · intro c0 c1 c2 c3 c4 crest hc h255
      injection hc with h0 hc
      subst h0
      injection hc with h1 hc
      injection hc with h2 hc
      injection hc with h3 hc
      injection hc with h4 hc
      subst h1
      subst h2
      subst h3
      subst h4
      simp only [terminalSetup]
      rw [if_pos h255]

/-- Claim C10 (witness): a stream starting `9 1 2 3 4 5` gets the
default 24×80 size and hands `[5]` to the main loop. -/
theorem C10_terminal_prologue_witness :
    (terminalSetup [9, 1, 2, 3, 4, 5]).2 = List.drop 5 [9, 1, 2, 3, 4, 5] ∧
    (terminalSetup [9, 1, 2, 3, 4, 5]).1 = (24, 80) :=
  ⟨(C10_terminal_prologue [9, 1, 2, 3, 4, 5] 1 (by decide)).1,
   (C10_terminal_prologue [9, 1, 2, 3, 4, 5] 1 (by decide)).2.2.1 9 [1, 2, 3, 4, 5]
     rfl (by decide)⟩

/-- Claim C8 (counterexample): the 8195-byte config line
`{"command":"a…a"}` (8180 `a`s) is strictly larger than 8 KiB, yet the
agent parses it and spawns the command — nothing bounds the first-line
read at 8 KiB. -/
theorem C8_big_config_spawns :
    8192 < bigConfigLine.length ∧
    spawnsCommand (execDecision bigConfigLine) = true := by
  constructor
  · show 8192 < (cmdLine 8180).length
    have h : ∀ n, (cmdLine n).length = n + 15 := by
      intro n
      simp [cmdLine] <;> omega
    have h8 := h 8180
    omega
  · show spawnsCommand (execDecision (cmdLine 8180)) = true
    rw [execDecision_cmdLine 8180]
    rfl

/-- Claim C8 (amended): the first-line read of `handle_exec_io` is not
bounded at 8 KiB or anywhere else: any line whose trimmed content
deserializes to an `ExecRequest` spawns the command regardless of its
length — in particular every member of the `{"command":"a…a"}` family,
including those far beyond 8 KiB — and rejection happens only when the
UTF-8 read or the JSON parse fails. -/
theorem C8_config_size_unbounded :
    (∀ line c, validUtf8 line = true → execFromJson (trimAscii line) = some c →
      execDecision line = (if c.tty then .spawnPty c else .spawnPiped c)) ∧
    (∀ line, spawnsCommand (execDecision line) = false ↔
      (validUtf8 line = false ∨ execFromJson (trimAscii line) = none)) ∧
    (∀ n, execDecision (cmdLine n) =
      .spawnPiped ⟨List.replicate n 97, false, none, none⟩) := by
  refine ⟨?_, ?_, execDecision_cmdLine⟩
  · intro line c hutf hparse
    simp only [execDecision]
    rw [hutf, if_pos rfl, hparse]
  · intro line
    simp only [execDecision]
    by_cases hutf : validUtf8 line = true
    · rw [hutf, if_pos rfl]
      cases hparse : execFromJson (trimAscii line) with
      | none => simp [spawnsCommand, hutf]
      | some c =>
          simp only []
          by_cases htty : c.tty
          · simp [htty, spawnsCommand, hutf, hparse]
          · simp [htty, spawnsCommand, hutf, hparse]
    · have hfalse : validUtf8 line = false := by
        cases h : validUtf8 line
        · rfl
        · exact absurd h hutf
      rw [if_neg (by simp [hfalse])]
      simp [spawnsCommand, hfalse]

/-- Claim C8 (witness): the smallest member of the family,
`{"command":""}`, spawns through the piped path. -/
theorem C8_config_size_unbounded_witness :
    execDecision (cmdLine 0) =
      .spawnPiped ⟨List.replicate 0 97, false, none, none⟩ := by
  have h := C8_config_size_unbounded.1 (cmdLine 0)
    ⟨List.replicate 0 97, false, none, none⟩ (by decide) (by decide)
  simpa using h

end M87
